import Mathlib

/-!
Shallow embedding of `src/minilm2/llm/infer_sft.py` (MiniLM2 interactive
SFT inference driver) and verification of its specification claims.

The tokenizer, the role-marker strings `config.HUMAN_PREFIX` /
`config.AI_PREFIX` and the neural model are external collaborators; they
are taken as parameters (`enc`, `hp`, `ai`, `M`).  Token ids are `Nat`,
probabilities are `Rat` with the float transcendentals `exp` and `sqrt`
abstracted as function parameters.
-/

namespace MiniLM2

/-- Python list slicing `l[k:]` for an arbitrary integer start index `k`:
a nonnegative `k` drops the first `k` elements, a negative `k` keeps the
last `-k` elements (clamped), and `k = 0` (also arising from `-0`) keeps
everything. -/
def pySliceFrom (k : ℤ) (l : List α) : List α :=
  if 0 ≤ k then l.drop k.toNat else l.drop (l.length - (-k).toNat)

/-- Tokens of the turn separator, `tokenizer.encode("\n" * 3).ids`
(line 14 of `infer_sft.py`). -/
def sepIds (enc : String → List ℕ) : List ℕ := enc "\n\n\n"

/-- Tokens of the pinned system-prompt portion,
`tokenizer.encode(system_prompt).ids + separator_ids if system_prompt else []`
(line 15).  Python truthiness: both `None` and `""` give `[]`. -/
def sysPromptIds (enc : String → List ℕ) (system_prompt : Option String) : List ℕ :=
  match system_prompt with
  | some s => if s = "" then [] else enc s ++ sepIds enc
  | none => []

/-- Turn-token portion accumulated by the `for i in range(len(history))`
loop of `build_context` (lines 16-21): for turn `i`, human prefix, encoded
human text, separator, ai prefix, encoded ai text, and a separator after
every turn except the last. -/
def turnTokens (enc : String → List ℕ) (hp ai : String)
    (history : List (String × String)) : List ℕ :=
  (history.mapIdx (fun i t =>
    enc hp ++ enc t.1 ++ sepIds enc ++ enc ai ++ enc t.2 ++
      (if i < history.length - 1 then sepIds enc else []))).flatten

/-- Embedding of `build_context` (lines 9-23):
`ids = system_prompt_ids + ids[len(system_prompt_ids)-max_length:]`. -/
def build_context (enc : String → List ℕ) (hp ai : String)
    (history : List (String × String)) (max_length : ℕ)
    (system_prompt : Option String) : List ℕ :=
  sysPromptIds enc system_prompt ++
    pySliceFrom (((sysPromptIds enc system_prompt).length : ℤ) - (max_length : ℤ))
      (turnTokens enc hp ai history)

/-- Concrete tokenizer used for witnesses and counterexamples: one token
per character, the token id being the character code. -/
def charEnc (s : String) : List ℕ := s.data.map Char.toNat

/-- Every Python slice `l[k:]` is a drop of an initial segment: the kept
part is a contiguous suffix of `l`. -/
lemma pySliceFrom_eq_drop (k : ℤ) (l : List α) :
    ∃ d, d ≤ l.length ∧ pySliceFrom k l = l.drop d := by
  unfold pySliceFrom
  split
  · refine ⟨min k.toNat l.length, min_le_right _ _, ?_⟩
    rcases le_total k.toNat l.length with h | h
    · rw [min_eq_left h]
    · rw [min_eq_right h, List.drop_eq_nil_of_le h, List.drop_length]
  · exact ⟨l.length - (-k).toNat, Nat.sub_le _ _, rfl⟩

/-- C2 (amended): when the pinned prefix is strictly shorter than
`max_length`, the built context has length at most `max_length`, and
exactly `max_length` whenever the untruncated concatenation would
exceed the budget. -/
theorem build_context_length_bound (enc : String → List ℕ) (hp ai : String)
    (history : List (String × String)) (max_length : ℕ) (sp : Option String)
    (hS : (sysPromptIds enc sp).length < max_length) :
    (build_context enc hp ai history max_length sp).length ≤ max_length ∧
      (max_length <
          (sysPromptIds enc sp).length + (turnTokens enc hp ai history).length →
        (build_context enc hp ai history max_length sp).length = max_length) := by
  unfold build_context pySliceFrom
  have hneg : ¬ (0 : ℤ) ≤ ((sysPromptIds enc sp).length : ℤ) - (max_length : ℤ) := by
    omega
  rw [if_neg hneg]
  simp only [List.length_append, List.length_drop]
  omega

/-- C2 (counterexample to the claim as stated): with the character
tokenizer, system prompt "ab" and `max_length = 5`, the pinned prefix has
length exactly 5 (so it does not exceed `max_length`), yet the built
context for a one-turn history has length 9 > 5: the Python slice
`ids[len(sys)-max_length:]` degenerates to `ids[0:]`. -/
theorem build_context_length_counterexample :
    (sysPromptIds charEnc (some "ab")).length ≤ 5 ∧
      ¬ (build_context charEnc "H:" "A:" [("x", "")] 5 (some "ab")).length ≤ 5 := by
  decide

/-- Witness for `build_context_length_bound` at a concrete truncating
input: prefix length 4 < 6, untruncated total 10 > 6, final length 6. -/
theorem build_context_length_bound_witness :
    (build_context charEnc "" "" [("xyz", "")] 6 (some "a")).length ≤ 6 ∧
      (6 < (sysPromptIds charEnc (some "a")).length +
          (turnTokens charEnc "" "" [("xyz", "")]).length →
        (build_context charEnc "" "" [("xyz", "")] 6 (some "a")).length = 6) := by
  have h := build_context_length_bound charEnc "" "" [("xyz", "")] 6 (some "a")
    (by decide)
  exact h

/-- C3: for every history and present (nonempty) system prompt, the
encoded system prompt followed by the separator is a literal prefix of
the result, and whatever truncation removes is `take d` of the turn
tokens — one contiguous block of the oldest turn tokens, never from the
middle and never from the pinned prefix. -/
theorem build_context_pinned_and_oldest_drop (enc : String → List ℕ)
    (hp ai : String) (history : List (String × String)) (max_length : ℕ)
    (s : String) (hs : s ≠ "") :
    ∃ d, d ≤ (turnTokens enc hp ai history).length ∧
      build_context enc hp ai history max_length (some s) =
        (enc s ++ sepIds enc) ++ (turnTokens enc hp ai history).drop d := by
  have hsys : sysPromptIds enc (some s) = enc s ++ sepIds enc := by
    simp [sysPromptIds, hs]
  obtain ⟨d, hd, hdrop⟩ :=
    pySliceFrom_eq_drop
      (((sysPromptIds enc (some s)).length : ℤ) - (max_length : ℤ))
      (turnTokens enc hp ai history)
  refine ⟨d, hd, ?_⟩
  unfold build_context
  rw [hdrop, hsys]

/-- Witness for `build_context_pinned_and_oldest_drop` at a concrete
input with a truncating budget. -/
theorem build_context_pinned_and_oldest_drop_witness :
    ∃ d, d ≤ (turnTokens charEnc "" "" [("x", "")]).length ∧
      build_context charEnc "" "" [("x", "")] 5 (some "ab") =
        (charEnc "ab" ++ sepIds charEnc) ++
          (turnTokens charEnc "" "" [("x", "")]).drop d :=
  build_context_pinned_and_oldest_drop charEnc "" "" [("x", "")] 5 "ab"
    (by decide)

/-- Pointwise-equal index functions give equal `mapIdx` results. -/
lemma mapIdx_congr_fun (l : List α) (f g : ℕ → α → β)
    (h : ∀ i a, f i a = g i a) : l.mapIdx f = l.mapIdx g := by
  induction l generalizing f g with
  | nil => simp
  | cons a t ih =>
    simp only [List.mapIdx_cons, h 0 a]
    exact congrArg _ (ih _ _ fun i x => h (i + 1) x)

/-- Flattening blocks with a separator after every element but the last
equals an intercalation of the blocks. -/
lemma flatten_mapIdx_sep (B : α → List β) (sep : List β) (l : List α) :
    (l.mapIdx fun i x => B x ++ if i < l.length - 1 then sep else []).flatten =
      List.intercalate sep (l.map B) := by
  induction l with
  | nil => simp [List.intercalate]
  | cons a l ih =>
    simp only [List.mapIdx_cons, List.flatten_cons]
    have hshift :
        (List.mapIdx
          (fun i x => B x ++ if i + 1 < (a :: l).length - 1 then sep else []) l)
        = (List.mapIdx
          (fun i x => B x ++ if i < l.length - 1 then sep else []) l) :=
      mapIdx_congr_fun _ _ _ fun i x =>
        congrArg _ (if_congr (by simp only [List.length_cons]; omega) rfl rfl)
    rw [hshift, ih]
    cases l with
    | nil => simp [List.intercalate]
    | cons b u =>
      rw [if_pos (by simp)]
      simp [List.intercalate, List.append_assoc]

/-- The indexed loop of `build_context` (separator appended after every
turn except the last) equals an intercalation of per-turn blocks. -/
lemma turnTokens_eq_intercalate (enc : String → List ℕ) (hp ai : String)
    (history : List (String × String)) :
    turnTokens enc hp ai history =
      List.intercalate (sepIds enc)
        (history.map fun t =>
          enc hp ++ enc t.1 ++ sepIds enc ++ enc ai ++ enc t.2) := by
  unfold turnTokens
  exact flatten_mapIdx_sep
    (fun t => enc hp ++ enc t.1 ++ sepIds enc ++ enc ai ++ enc t.2)
    (sepIds enc) history

/-- When the pinned prefix plus the turn tokens fit in the budget, the
slice keeps all turn tokens. -/
lemma pySliceFrom_of_fits (S max_length : ℕ) (l : List α)
    (h : S + l.length ≤ max_length) :
    pySliceFrom ((S : ℤ) - (max_length : ℤ)) l = l := by
  unfold pySliceFrom
  split
  · have hlen : l.length = 0 := by omega
    rw [List.eq_nil_of_length_eq_zero hlen]
    simp
  · have hz : l.length - (-((S : ℤ) - (max_length : ℤ))).toNat = 0 := by omega
    rw [hz, List.drop_zero]

/-- C9: under a sufficient budget, `build_context` emits the pinned
prefix followed by, for each turn in order, human-prefix, encoded human
text, separator, ai-prefix, encoded ai text, with the separator between
consecutive turns and not after the final turn. -/
theorem build_context_turn_structure (enc : String → List ℕ) (hp ai : String)
    (history : List (String × String)) (max_length : ℕ) (sp : Option String)
    (hfit : (sysPromptIds enc sp).length +
      (turnTokens enc hp ai history).length ≤ max_length) :
    build_context enc hp ai history max_length sp =
      sysPromptIds enc sp ++
        List.intercalate (sepIds enc)
          (history.map fun t =>
            enc hp ++ enc t.1 ++ sepIds enc ++ enc ai ++ enc t.2) := by
  unfold build_context
  rw [pySliceFrom_of_fits _ _ _ hfit, turnTokens_eq_intercalate]

/-- Witness for `build_context_turn_structure`: the specification example
with History `[("hi", "")]`, a large budget and system prompt "Be terse"
yields encode("Be terse") + separator + human-prefix + encode("hi") +
separator + ai-prefix + encode(""). -/
theorem build_context_turn_structure_witness :
    build_context charEnc "H:" "A:" [("hi", "")] 100 (some "Be terse") =
      charEnc "Be terse" ++ sepIds charEnc ++
        (charEnc "H:" ++ charEnc "hi" ++ sepIds charEnc ++
          charEnc "A:" ++ charEnc "") := by
  have h := build_context_turn_structure charEnc "H:" "A:" [("hi", "")] 100
    (some "Be terse") (by decide)
  rw [h]
  decide

/-! ## Sampler (decode-loop lines 175-181 and 204-211)

Probabilities are modelled over `ℚ`; the float transcendentals are
abstracted as function parameters `fexp` (used by softmax) and `fsqrt`
(used by the confidence display, `prob ** 0.5`). -/

/-- Python built-in `round`: round half to even. -/
def pyRound (q : ℚ) : ℤ :=
  if q - ⌊q⌋ < 1/2 then ⌊q⌋
  else if 1/2 < q - ⌊q⌋ then ⌊q⌋ + 1
  else if ⌊q⌋ % 2 = 0 then ⌊q⌋ else ⌊q⌋ + 1

/-- Embedding of `F.softmax(x / temperature, dim=-1)` applied to the
last-position logits (lines 175 and 204). -/
def softmaxT (fexp : ℚ → ℚ) (temperature : ℚ) (logits : List ℚ) : List ℚ :=
  (logits.map fun x => fexp (x / temperature)).map
    (fun v => v / (logits.map fun x => fexp (x / temperature)).sum)

/-- Ordering used to model `torch.topk`: larger value first, ties broken
by smaller index. -/
def topkRel (a b : ℚ × ℕ) : Prop := b.1 < a.1 ∨ (a.1 = b.1 ∧ a.2 ≤ b.2)

instance : DecidableRel topkRel := fun a b => by
  unfold topkRel
  infer_instance

instance : IsTotal (ℚ × ℕ) topkRel :=
  ⟨fun a b => by
    unfold topkRel
    rcases lt_trichotomy a.1 b.1 with h | h | h
    · exact Or.inr (Or.inl h)
    · rcases le_total a.2 b.2 with h2 | h2
      · exact Or.inl (Or.inr ⟨h, h2⟩)
      · exact Or.inr (Or.inr ⟨h.symm, h2⟩)
    · exact Or.inl (Or.inl h)⟩

instance : IsTrans (ℚ × ℕ) topkRel :=
  ⟨fun a b c hab hbc => by
    unfold topkRel at hab hbc ⊢
    rcases hab with h1 | ⟨h1, h1i⟩ <;> rcases hbc with h2 | ⟨h2, h2i⟩
    · exact Or.inl (h2.trans h1)
    · exact Or.inl (h2 ▸ h1)
    · exact Or.inl (h1 ▸ h2)
    · exact Or.inr ⟨h1.trans h2, h1i.trans h2i⟩⟩

/-- Embedding of `probs, indices = logits.topk(k)` (lines 177 and 206):
the `k` largest probabilities paired with their token indices, in
descending order. -/
def topkSel (k : ℕ) (ps : List ℚ) : List (ℚ × ℕ) :=
  ((ps.enum.map fun p => (p.2, p.1)).insertionSort topkRel).take k

/-- Embedding of `sample = torch.multinomial(probs, 1)` given a random
draw `u`: inverse-CDF selection over the unnormalized weights, `none`
when the draw is not covered (`torch.multinomial` raises on an empty or
exhausted weight list). -/
def multinomialDraw : List ℚ → ℚ → Option ℕ
  | [], _ => none
  | w :: ws, u =>
    if u < w then some 0 else (multinomialDraw ws (u - w)).map (· + 1)

/-- Embedding of one sampling step shared by both decode loops (lines
175-181 and 204-211): softmax at temperature, fixed-size top-k of
`round(vocab_size * top_p)` tokens, weighted draw, and confidence
`round(sqrt(prob) * 16)`.  Returns `(token_id, probability, confidence)`. -/
def sampleStep (fexp fsqrt : ℚ → ℚ) (vocab_size : ℕ) (temperature top_p : ℚ)
    (lastLogits : List ℚ) (u : ℚ) : Option (ℕ × ℚ × ℤ) :=
  match multinomialDraw
      ((topkSel (pyRound ((vocab_size : ℚ) * top_p)).toNat
        (softmaxT fexp temperature lastLogits)).map Prod.fst) u with
  | some s =>
    match (topkSel (pyRound ((vocab_size : ℚ) * top_p)).toNat
        (softmaxT fexp temperature lastLogits))[s]? with
    | some pi => some (pi.2, pi.1, pyRound (fsqrt pi.1 * 16))
    | none => none
  | none => none

/-- Embedding of the `!top_p` command handler (lines 131-140): `none`
models an unparsable or missing argument; out-of-range values are
rejected before any mutation. -/
def set_top_p (cur : ℚ) (arg : Option ℚ) : ℚ × Bool :=
  match arg with
  | none => (cur, false)
  | some v => if v ≤ 0 ∨ 1 < v then (cur, false) else (v, true)

/-- Embedding of the `!temperature` command handler (lines 141-150). -/
def set_temperature (cur : ℚ) (arg : Option ℚ) : ℚ × Bool :=
  match arg with
  | none => (cur, false)
  | some v => if v ≤ 0 ∨ 2 < v then (cur, false) else (v, true)

lemma pyRound_intCast (n : ℤ) : pyRound (n : ℚ) = n := by
  unfold pyRound
  rw [Int.floor_intCast]
  norm_num

lemma pyRound_le_of_le {q : ℚ} {n : ℤ} (h : q ≤ n) : pyRound q ≤ n := by
  have hfl : ⌊q⌋ ≤ n := by
    have h2 := Int.floor_mono h
    rwa [Int.floor_intCast] at h2
  have hq : (⌊q⌋ : ℚ) ≤ q := Int.floor_le q
  unfold pyRound
  split_ifs with h1 h2 h3
  · exact hfl
  · have hne : ⌊q⌋ ≠ n := by
      intro he
      rw [he] at h2
      have : q - (n : ℚ) ≤ 0 := by
        have := h
        linarith
      linarith
    omega
  · exact hfl
  · have hne : ⌊q⌋ ≠ n := by
      intro he
      rw [he] at h1
      have : q - (n : ℚ) ≤ 0 := by linarith
      exact h1 (by linarith)
    omega

lemma multinomialDraw_mem (ws : List ℚ) (u : ℚ) (h0 : 0 ≤ u)
    (hlt : u < ws.sum) : ∃ s, multinomialDraw ws u = some s ∧ s < ws.length := by
  induction ws generalizing u with
  | nil =>
    exfalso
    simp only [List.sum_nil] at hlt
    linarith
  | cons w ws ih =>
    by_cases hu : u < w
    · exact ⟨0, by simp [multinomialDraw, hu], by simp⟩
    · push_neg at hu
      have hsum : u - w < ws.sum := by
        simp only [List.sum_cons] at hlt
        linarith
      obtain ⟨s, hs, hlen⟩ := ih (u - w) (by linarith) hsum
      refine ⟨s + 1, ?_, by simpa using Nat.succ_lt_succ hlen⟩
      simp [multinomialDraw, not_lt.mpr hu, hs]

lemma topkSel_length {k : ℕ} {ps : List ℚ} (hk : k ≤ ps.length) :
    (topkSel k ps).length = k := by
  unfold topkSel
  rw [List.length_take, (List.perm_insertionSort topkRel _).length_eq,
    List.length_map, List.enum_length]
  omega

lemma topkSel_getElem? {k : ℕ} {ps : List ℚ} {x : ℚ × ℕ}
    (hx : x ∈ topkSel k ps) : ps[x.2]? = some x.1 := by
  unfold topkSel at hx
  have h1 : x ∈ (ps.enum.map fun p => (p.2, p.1)).insertionSort topkRel :=
    List.take_subset _ _ hx
  have h2 : x ∈ ps.enum.map fun p => (p.2, p.1) :=
    (List.perm_insertionSort topkRel _).mem_iff.mp h1
  obtain ⟨p, hp, hpx⟩ := List.mem_map.mp h2
  have hmem : (x.2, x.1) ∈ ps.enum := by
    cases hpx
    exact hp
  exact List.mk_mem_enum_iff_getElem?.mp hmem

lemma topkSel_dominates {k : ℕ} {ps : List ℚ} {j : ℕ} {qj : ℚ}
    (hj : ps[j]? = some qj) (hnot : j ∉ (topkSel k ps).map Prod.snd) :
    ∀ pr ∈ topkSel k ps, qj ≤ pr.1 := by
  intro pr hpr
  unfold topkSel at hpr hnot
  have hbase : (qj, j) ∈ ps.enum.map fun p => (p.2, p.1) :=
    List.mem_map.mpr ⟨(j, qj), List.mk_mem_enum_iff_getElem?.mpr hj, rfl⟩
  have hsorted0 : (qj, j) ∈ (ps.enum.map fun p => (p.2, p.1)).insertionSort topkRel :=
    (List.perm_insertionSort topkRel _).mem_iff.mpr hbase
  set sorted := (ps.enum.map fun p => (p.2, p.1)).insertionSort topkRel with hsorted_def
  have hsplit : sorted.take k ++ sorted.drop k = sorted := List.take_append_drop k sorted
  have hdrop : (qj, j) ∈ sorted.drop k := by
    rcases List.mem_append.mp (hsplit ▸ hsorted0) with h | h
    · exact absurd (List.mem_map.mpr ⟨(qj, j), h, rfl⟩) hnot
    · exact h
  have hsorted : List.Sorted topkRel sorted := List.sorted_insertionSort topkRel _
  have hpw : List.Pairwise topkRel (sorted.take k ++ sorted.drop k) := by
    rw [hsplit]
    exact hsorted
  have hrel : topkRel pr (qj, j) :=
    (List.pairwise_append.mp hpw).2.2 pr hpr (qj, j) hdrop
  rcases hrel with h | ⟨h, _⟩
  · exact le_of_lt h
  · exact le_of_eq h.symm

lemma softmaxT_length (fexp : ℚ → ℚ) (t : ℚ) (logits : List ℚ) :
    (softmaxT fexp t logits).length = logits.length := by
  simp [softmaxT]

lemma sum_map_div (l : List ℚ) (c : ℚ) :
    (l.map fun v => v / c).sum = l.sum / c := by
  induction l with
  | nil => simp
  | cons a l ih => simp [ih, add_div]

lemma softmaxT_sum (fexp : ℚ → ℚ) (t : ℚ) (logits : List ℚ)
    (hne : logits ≠ []) (hexp : ∀ x, 0 < fexp x) :
    (softmaxT fexp t logits).sum = 1 := by
  unfold softmaxT
  rw [sum_map_div]
  apply div_self
  have hpos : 0 < (logits.map fun x => fexp (x / t)).sum := by
    apply List.sum_pos
    · intro a ha
      obtain ⟨x, _, hx⟩ := List.mem_map.mp ha
      exact hx ▸ hexp _
    · simpa using hne
  exact ne_of_gt hpos

lemma sampleStep_eq_of_draw {fexp fsqrt : ℚ → ℚ} {vocab_size : ℕ}
    {temperature top_p : ℚ} {lastLogits : List ℚ} {u : ℚ} {s : ℕ}
    (hs : multinomialDraw
      ((topkSel (pyRound ((vocab_size : ℚ) * top_p)).toNat
        (softmaxT fexp temperature lastLogits)).map Prod.fst) u = some s)
    {pi : ℚ × ℕ}
    (hget : (topkSel (pyRound ((vocab_size : ℚ) * top_p)).toNat
      (softmaxT fexp temperature lastLogits))[s]? = some pi) :
    sampleStep fexp fsqrt vocab_size temperature top_p lastLogits u =
      some (pi.2, pi.1, pyRound (fsqrt pi.1 * 16)) := by
  unfold sampleStep
  rw [hs]
  simp [hget]

lemma topk_count_le {vocab_size : ℕ} {top_p : ℚ} (htp1 : top_p ≤ 1) :
    (pyRound ((vocab_size : ℚ) * top_p)).toNat ≤ vocab_size := by
  have h1 : (vocab_size : ℚ) * top_p ≤ ((vocab_size : ℤ) : ℚ) := by
    push_cast
    exact mul_le_of_le_one_right (Nat.cast_nonneg _) htp1
  have h2 := pyRound_le_of_le h1
  omega

/-- C6: one sampling step computes probabilities as softmax of the
last-position logits divided by temperature, keeps exactly the
`round(vocab_size * top_p)` highest-probability tokens, draws the chosen
token by a weighted draw over the unnormalized truncated probabilities,
and reports confidence `round(sqrt(chosen_probability) * 16)`. -/
theorem sample_step_pipeline (fexp fsqrt : ℚ → ℚ) (vocab_size : ℕ)
    (temperature top_p : ℚ) (lastLogits : List ℚ) (u : ℚ)
    (hlen : lastLogits.length = vocab_size)
    (htemp0 : 0 < temperature) (htemp2 : temperature ≤ 2)
    (htp0 : 0 < top_p) (htp1 : top_p ≤ 1) (hu0 : 0 ≤ u)
    (hu1 : u < ((topkSel (pyRound ((vocab_size : ℚ) * top_p)).toNat
      (softmaxT fexp temperature lastLogits)).map Prod.fst).sum) :
    ∃ idx p,
      sampleStep fexp fsqrt vocab_size temperature top_p lastLogits u =
        some (idx, p, pyRound (fsqrt p * 16)) ∧
      (p, idx) ∈ topkSel (pyRound ((vocab_size : ℚ) * top_p)).toNat
        (softmaxT fexp temperature lastLogits) ∧
      (softmaxT fexp temperature lastLogits)[idx]? = some p ∧
      (topkSel (pyRound ((vocab_size : ℚ) * top_p)).toNat
          (softmaxT fexp temperature lastLogits)).length =
        (pyRound ((vocab_size : ℚ) * top_p)).toNat ∧
      ∀ j qj, (softmaxT fexp temperature lastLogits)[j]? = some qj →
        j ∉ ((topkSel (pyRound ((vocab_size : ℚ) * top_p)).toNat
          (softmaxT fexp temperature lastLogits)).map Prod.snd) →
        qj ≤ p := by
  have hk : (pyRound ((vocab_size : ℚ) * top_p)).toNat ≤
      (softmaxT fexp temperature lastLogits).length := by
    rw [softmaxT_length, hlen]
    exact topk_count_le htp1
  obtain ⟨s, hs, hslen⟩ := multinomialDraw_mem _ u hu0 hu1
  rw [List.length_map] at hslen
  have hget := List.getElem?_eq_getElem hslen
  have hmem := List.getElem_mem hslen
  refine ⟨_, _, sampleStep_eq_of_draw hs hget, ?_, ?_, ?_, ?_⟩
  · simpa using hmem
  · exact topkSel_getElem? hmem
  · exact topkSel_length hk
  · intro j qj hj hnot
    exact topkSel_dominates hj hnot _ hmem

/-- Witness for `sample_step_pipeline` at vocab 4, uniform logits,
temperature 1, top_p 1/2, draw 1/4. -/
theorem sample_step_pipeline_witness :
    ∃ idx p,
      sampleStep (fun _ => 1) (fun _ => 0) 4 1 (1/2) [0, 0, 0, 0] (1/4) =
        some (idx, p, pyRound ((fun _ : ℚ => (0 : ℚ)) p * 16)) ∧
      (p, idx) ∈ topkSel (pyRound (((4 : ℕ) : ℚ) * (1/2))).toNat
        (softmaxT (fun _ => 1) 1 [0, 0, 0, 0]) := by
  obtain ⟨idx, p, h1, h2, _⟩ :=
    sample_step_pipeline (fun _ => 1) (fun _ => 0) 4 1 (1/2) [0, 0, 0, 0] (1/4)
      rfl (by norm_num) (by norm_num) (by norm_num) (by norm_num) (by norm_num)
      (by norm_num [topkSel, softmaxT, List.insertionSort, List.orderedInsert,
        topkRel, List.enum, pyRound, List.take, Int.toNat])
  exact ⟨idx, p, h1, h2⟩

/-- C7 (amended): with `top_p = 1` sampling never fails for an in-range
draw even though the truncated set is the full vocabulary; and whenever
`round(vocab_size * top_p) ≥ 1`, sampling succeeds for an in-range draw
and returns a token among the `round(vocab_size * top_p)`
highest-probability tokens only. -/
theorem sample_step_safety (fexp fsqrt : ℚ → ℚ) (vocab_size : ℕ)
    (temperature top_p : ℚ) (lastLogits : List ℚ) (u : ℚ)
    (hlen : lastLogits.length = vocab_size) (hv : 0 < vocab_size)
    (hexp : ∀ x, 0 < fexp x)
    (htp0 : 0 < top_p) (htp1 : top_p ≤ 1) (hu0 : 0 ≤ u) :
    (top_p = 1 →
      (topkSel (pyRound ((vocab_size : ℚ) * top_p)).toNat
          (softmaxT fexp temperature lastLogits)).length = vocab_size ∧
      (u < 1 →
        (sampleStep fexp fsqrt vocab_size temperature top_p lastLogits
          u).isSome = true)) ∧
    (1 ≤ (pyRound ((vocab_size : ℚ) * top_p)).toNat →
      u < ((topkSel (pyRound ((vocab_size : ℚ) * top_p)).toNat
        (softmaxT fexp temperature lastLogits)).map Prod.fst).sum →
      ∃ idx p c,
        sampleStep fexp fsqrt vocab_size temperature top_p lastLogits u =
          some (idx, p, c) ∧
        idx ∈ (topkSel (pyRound ((vocab_size : ℚ) * top_p)).toNat
          (softmaxT fexp temperature lastLogits)).map Prod.snd) := by
  have hklen : (pyRound ((vocab_size : ℚ) * top_p)).toNat ≤
      (softmaxT fexp temperature lastLogits).length := by
    rw [softmaxT_length, hlen]
    exact topk_count_le htp1
  constructor
  · intro h1
    subst h1
    have hkv : (pyRound ((vocab_size : ℚ) * 1)).toNat = vocab_size := by
      have h2 : ((vocab_size : ℕ) : ℚ) * 1 = (((vocab_size : ℕ) : ℤ) : ℚ) := by
        push_cast
        ring
      rw [h2, pyRound_intCast]
      omega
    have hlsel : (topkSel (pyRound ((vocab_size : ℚ) * 1)).toNat
        (softmaxT fexp temperature lastLogits)).length = vocab_size := by
      rw [topkSel_length hklen, hkv]
    refine ⟨hlsel, fun hu1 => ?_⟩
    have hne : lastLogits ≠ [] := by
      intro hnil
      rw [hnil] at hlen
      simp at hlen
      omega
    have hsum : ((topkSel (pyRound ((vocab_size : ℚ) * 1)).toNat
        (softmaxT fexp temperature lastLogits)).map Prod.fst).sum = 1 := by
      have htake : topkSel (pyRound ((vocab_size : ℚ) * 1)).toNat
          (softmaxT fexp temperature lastLogits) =
          ((softmaxT fexp temperature lastLogits).enum.map
            fun p => (p.2, p.1)).insertionSort topkRel := by
        unfold topkSel
        apply List.take_of_length_le
        rw [(List.perm_insertionSort topkRel _).length_eq, List.length_map,
          List.enum_length, softmaxT_length, hlen, hkv]
      rw [htake]
      have hperm : List.Perm
          ((((softmaxT fexp temperature lastLogits).enum.map
            fun p => (p.2, p.1)).insertionSort topkRel).map Prod.fst)
          ((((softmaxT fexp temperature lastLogits).enum.map
            fun p => (p.2, p.1)).map Prod.fst)) :=
        (List.perm_insertionSort topkRel _).map Prod.fst
      rw [hperm.sum_eq, List.map_map]
      have : (Prod.fst ∘ fun p : ℕ × ℚ => (p.2, p.1)) = Prod.snd := rfl
      rw [this, List.enum_map_snd]
      exact softmaxT_sum fexp temperature lastLogits hne hexp
    obtain ⟨s, hs, hslen⟩ := multinomialDraw_mem _ u hu0 (by rw [hsum]; exact hu1)
    rw [List.length_map] at hslen
    rw [sampleStep_eq_of_draw hs (List.getElem?_eq_getElem hslen)]
    rfl
  · intro hk1 hu1
    obtain ⟨s, hs, hslen⟩ := multinomialDraw_mem _ u hu0 hu1
    rw [List.length_map] at hslen
    have hget := List.getElem?_eq_getElem hslen
    exact ⟨_, _, _, sampleStep_eq_of_draw hs hget,
      List.mem_map.mpr ⟨_, List.getElem_mem hslen, rfl⟩⟩

/-- C7 (counterexample to the claim as stated): `top_p = 1/10` is a valid
value in `(0, 1]`, yet with vocab size 4 the selected count is
`round(4 * 1/10) = 0`, the truncated set is empty, and the sampling step
fails (`torch.multinomial` raises on an empty weight tensor). -/
theorem sample_step_tiny_top_p_counterexample :
    (0 : ℚ) < 1/10 ∧ (1/10 : ℚ) ≤ 1 ∧
      sampleStep (fun _ => 1) (fun _ => 0) 4 1 (1/10) [0, 0, 0, 0] 0 = none := by
  refine ⟨by norm_num, by norm_num, ?_⟩
  norm_num [sampleStep, softmaxT, topkSel, multinomialDraw, pyRound,
    List.insertionSort, List.orderedInsert, topkRel, List.enum]

/-- Witness for `sample_step_safety` at vocab 4, uniform logits,
`top_p = 1`, draw 1/2. -/
theorem sample_step_safety_witness :
    (topkSel (pyRound (((4 : ℕ) : ℚ) * 1)).toNat
        (softmaxT (fun _ => 1) 1 [0, 0, 0, 0])).length = 4 ∧
      (sampleStep (fun _ => 1) (fun _ => 0) 4 1 1 [0, 0, 0, 0]
        (1/2)).isSome = true := by
  have h := sample_step_safety (fun _ => 1) (fun _ => 0) 4 1 1 [0, 0, 0, 0]
    (1/2) rfl (by norm_num) (fun x => by norm_num) (by norm_num) (by norm_num)
    (by norm_num)
  obtain ⟨hl, hsome⟩ := h.1 rfl
  exact ⟨hl, hsome (by norm_num)⟩

/-- C8: an interactive parameter update with a missing/unparsable or
out-of-domain value is rejected with no mutation; an in-domain value
replaces the stored one with confirmation; and the sampler itself runs
without any domain check (here at the invalid temperature 3). -/
theorem set_params_validation :
    (∀ cur : ℚ, set_top_p cur none = (cur, false)) ∧
    (∀ cur v : ℚ, v ≤ 0 ∨ 1 < v → set_top_p cur (some v) = (cur, false)) ∧
    (∀ cur v : ℚ, 0 < v → v ≤ 1 → set_top_p cur (some v) = (v, true)) ∧
    (∀ cur : ℚ, set_temperature cur none = (cur, false)) ∧
    (∀ cur v : ℚ, v ≤ 0 ∨ 2 < v → set_temperature cur (some v) = (cur, false)) ∧
    (∀ cur v : ℚ, 0 < v → v ≤ 2 → set_temperature cur (some v) = (v, true)) ∧
    (sampleStep (fun _ => 1) (fun _ => 0) 2 3 1 [0, 0] 0).isSome = true := by
  refine ⟨fun cur => rfl, fun cur v h => ?_, fun cur v h0 h1 => ?_,
    fun cur => rfl, fun cur v h => ?_, fun cur v h0 h2 => ?_, ?_⟩
  · simp [set_top_p, h]
  · have hno : ¬ (v ≤ 0 ∨ 1 < v) := by
      push_neg
      exact ⟨h0, h1⟩
    simp [set_top_p, hno]
  · simp [set_temperature, h]
  · have hno : ¬ (v ≤ 0 ∨ 2 < v) := by
      push_neg
      exact ⟨h0, h2⟩
    simp [set_temperature, hno]
  · norm_num [sampleStep, softmaxT, topkSel, multinomialDraw, pyRound,
      List.insertionSort, List.orderedInsert, topkRel, List.enum]

/-- Witness for `set_params_validation`: the specification example —
`!top_p 1.5` is rejected with no mutation, `!top_p 0.9` updates. -/
theorem set_params_validation_witness :
    set_top_p (1/2) (some (3/2)) = (1/2, false) ∧
      set_top_p (1/2) (some (9/10)) = (9/10, true) ∧
      set_temperature (1/2) none = (1/2, false) :=
  ⟨set_params_validation.2.1 (1/2) (3/2) (Or.inr (by norm_num)),
   set_params_validation.2.2.1 (1/2) (9/10) (by norm_num) (by norm_num),
   set_params_validation.2.2.2.1 (1/2)⟩

/-! ## Stop policy (lines 184-189 and 213-218)

Both decode loops run the same counter code over the decoded text of each
sampled token: `n_blankline += 1` on a newline, reset to 0 otherwise,
`break` as soon as the counter reaches 3. -/

/-- One update of the `n_blankline` counter. -/
def blanklineStep (n : ℕ) (token : String) : ℕ :=
  if token = "\n" then n + 1 else 0

/-- Scan of the sampled-token text stream with the counter started at
`n`: the index of the token at which the loop breaks, if any. -/
def stopRun : List String → ℕ → Option ℕ
  | [], _ => none
  | t :: ts, n =>
    if 3 ≤ blanklineStep n t then some 0
    else (stopRun ts (blanklineStep n t)).map (· + 1)

/-- Stop index of the full-recompute loop (lines 184-189). -/
def stopIndexFull (toks : List String) : Option ℕ := stopRun toks 0

/-- Stop index of the cache-incremental loop (lines 213-218). -/
def stopIndexCache (toks : List String) : Option ℕ := stopRun toks 0

/-- Position `i` completes a run of three consecutive newline tokens. -/
def tripleAt (toks : List String) (i : ℕ) : Prop :=
  2 ≤ i ∧ toks[i-2]? = some "\n" ∧ toks[i-1]? = some "\n" ∧
    toks[i]? = some "\n"

lemma padded_getElem (n : ℕ) (t : String) (ts : List String) (q : ℕ) :
    (List.replicate n "\n" ++ t :: ts)[q]? =
      if q < n then some "\n" else if q = n then some t else ts[q - n - 1]? := by
  by_cases h1 : q < n
  · rw [List.getElem?_append_left (by simpa using h1), if_pos h1,
      List.getElem?_replicate, if_pos h1]
  · push_neg at h1
    rw [List.getElem?_append_right (by simpa using h1), if_neg (not_lt.mpr h1)]
    rw [List.getElem?_cons]
    simp only [List.length_replicate]
    by_cases h2 : q = n
    · rw [if_pos h2, if_pos (by omega)]
    · rw [if_neg h2, if_neg (by omega)]

lemma tripleAt_shift {t : String} (ht : t ≠ "\n") {n : ℕ} (hn : n ≤ 2)
    (ts : List String) (m : ℕ) :
    tripleAt (List.replicate n "\n" ++ t :: ts) m ↔
      ∃ k, m = k + (n + 1) ∧ tripleAt ts k := by
  unfold tripleAt
  constructor
  · rintro ⟨h2, ha, hb, hc⟩
    rw [padded_getElem] at ha hb hc
    rcases Nat.lt_or_ge m (n + 3) with hm | hm
    · exfalso
      have hnm : n ≤ m := by omega
      rcases show m = n ∨ m = n + 1 ∨ m = n + 2 by omega with h | h | h
      · subst h
        simp only [lt_irrefl, if_neg, if_false, if_pos rfl] at hc
        exact ht (by injection hc)
      · subst h
        rw [if_neg (by omega), if_neg (by omega)] at hc
        rw [show n + 1 - 1 = n from by omega] at hb
        rw [if_neg (by omega), if_pos rfl] at hb
        exact ht (by injection hb)
      · subst h
        rw [show n + 2 - 2 = n from by omega] at ha
        rw [if_neg (by omega), if_pos rfl] at ha
        exact ht (by injection ha)
    · rw [if_neg (by omega), if_neg (by omega)] at ha hb hc
      refine ⟨m - (n + 1), by omega, by omega, ?_, ?_, ?_⟩
      · rw [show m - (n + 1) - 2 = m - 2 - n - 1 from by omega]
        exact ha
      · rw [show m - (n + 1) - 1 = m - 1 - n - 1 from by omega]
        exact hb
      · rw [show m - (n + 1) = m - n - 1 from by omega]
        exact hc
  · rintro ⟨k, rfl, h2, ha, hb, hc⟩
    refine ⟨by omega, ?_, ?_, ?_⟩
    · rw [padded_getElem, if_neg (by omega), if_neg (by omega),
        show k + (n + 1) - 2 - n - 1 = k - 2 from by omega]
      exact ha
    · rw [padded_getElem, if_neg (by omega), if_neg (by omega),
        show k + (n + 1) - 1 - n - 1 = k - 1 from by omega]
      exact hb
    · rw [padded_getElem, if_neg (by omega), if_neg (by omega),
        show k + (n + 1) - n - 1 = k from by omega]
      exact hc

lemma stopRun_spec (ts : List String) :
    ∀ n, n ≤ 2 → ∀ j,
      (stopRun ts n = some j ↔
        (tripleAt (List.replicate n "\n" ++ ts) (j + n) ∧
          ∀ m < j + n, ¬ tripleAt (List.replicate n "\n" ++ ts) m)) := by
  induction ts with
  | nil =>
    intro n hn j
    simp only [stopRun]
    constructor
    · intro h
      cases h
    · rintro ⟨⟨h2, _, _, hc⟩, _⟩
      rw [List.append_nil, List.getElem?_replicate] at hc
      split at hc
      · omega
      · cases hc
  | cons t ts ih =>
    intro n hn j
    by_cases ht : t = "\n"
    · subst ht
      have hstep : blanklineStep n "\n" = n + 1 := by
        simp [blanklineStep]
      have hlist : List.replicate n "\n" ++ "\n" :: ts =
          List.replicate (n + 1) "\n" ++ ts := by
        rw [List.replicate_succ', List.append_assoc]
        rfl
      by_cases h3 : n = 2
      · subst h3
        have hlhs : stopRun ("\n" :: ts) 2 = some 0 := by
          simp [stopRun, hstep]
        rw [hlhs, hlist]
        have htriple : tripleAt (List.replicate 3 "\n" ++ ts) 2 := by
          refine ⟨le_refl 2, ?_, ?_, ?_⟩ <;>
            simp [List.getElem?_append_left, List.getElem?_replicate]
        constructor
        · intro h
          have hj : j = 0 := by
            cases h
            rfl
          subst hj
          refine ⟨htriple, ?_⟩
          intro m hm ⟨hm2, _⟩
          omega
        · rintro ⟨_, hmin⟩
          by_contra hne
          have hj : 0 < j := by
            rcases Nat.eq_zero_or_pos j with h | h
            · subst h
              exact absurd rfl hne
            · exact h
          exact hmin 2 (by omega) htriple
      · have hn1 : n + 1 ≤ 2 := by omega
        have hlhs : stopRun ("\n" :: ts) n =
            (stopRun ts (n + 1)).map (· + 1) := by
          simp only [stopRun, hstep]
          rw [if_neg (by omega)]
        rw [hlhs, hlist]
        constructor
        · intro h
          obtain ⟨j1, hj1, rfl⟩ := Option.map_eq_some'.mp h
          obtain ⟨htr, hmin⟩ := (ih (n + 1) hn1 j1).mp hj1
          rw [show j1 + (n + 1) = j1 + 1 + n from by omega] at htr hmin
          exact ⟨htr, hmin⟩
        · rintro ⟨htr, hmin⟩
          have hj : 0 < j := by
            by_contra hj0
            have : j = 0 := by omega
            subst this
            obtain ⟨h2, _⟩ := htr
            omega
          obtain ⟨j1, rfl⟩ : ∃ j1, j = j1 + 1 := ⟨j - 1, by omega⟩
          rw [show j1 + 1 + n = j1 + (n + 1) from by omega] at htr hmin
          rw [(ih (n + 1) hn1 j1).mpr ⟨htr, hmin⟩]
          rfl
    · have hstep : blanklineStep n t = 0 := by
        simp [blanklineStep, ht]
      have hlhs : stopRun (t :: ts) n = (stopRun ts 0).map (· + 1) := by
        simp only [stopRun, hstep]
        rw [if_neg (by omega)]
      rw [hlhs]
      constructor
      · intro h
        obtain ⟨j1, hj1, rfl⟩ := Option.map_eq_some'.mp h
        obtain ⟨htr, hmin⟩ := (ih 0 (by omega) j1).mp hj1
        simp only [List.replicate_zero, List.nil_append] at htr hmin
        constructor
        · rw [tripleAt_shift ht hn]
          exact ⟨j1, by omega, htr⟩
        · intro m hm hcon
          rw [tripleAt_shift ht hn] at hcon
          obtain ⟨k, rfl, hk⟩ := hcon
          exact hmin k (by omega) hk
      · rintro ⟨htr, hmin⟩
        rw [tripleAt_shift ht hn] at htr
        obtain ⟨k, hjk, hk⟩ := htr
        have hmin2 : ∀ m < k, ¬ tripleAt ts m := by
          intro m hm hcon
          exact hmin (m + (n + 1)) (by omega)
            ((tripleAt_shift ht hn ts _).mpr ⟨m, rfl, hcon⟩)
        have := (ih 0 (by omega) k).mpr
          (by
            simp only [List.replicate_zero, List.nil_append]
            exact ⟨by simpa using hk, by simpa using hmin2⟩)
        have hj : j = k + 1 := by omega
        rw [this, hj]
        rfl

/-- C4: in both generation modes, generation halts exactly at the step
where the third consecutive sampled token decodes to a newline — never
before and never after — and the counter resets to zero on every
non-newline token. -/
theorem stop_at_third_consecutive_newline (toks : List String) (i : ℕ) :
    (stopIndexFull toks = some i ↔
      (tripleAt toks i ∧ ∀ j < i, ¬ tripleAt toks j)) ∧
    stopIndexCache toks = stopIndexFull toks ∧
    (∀ n t, t ≠ "\n" → blanklineStep n t = 0) ∧
    (∀ n, blanklineStep n "\n" = n + 1) := by
  refine ⟨?_, rfl, fun n t h => by simp [blanklineStep, h],
    fun n => by simp [blanklineStep]⟩
  have h := stopRun_spec toks 0 (by omega) i
  simpa using h

/-- Witness for `stop_at_third_consecutive_newline`: the stream
a, newline, newline, newline, b stops exactly at index 3. -/
theorem stop_at_third_newline_witness :
    stopIndexFull ["a", "\n", "\n", "\n", "b"] = some 3 :=
  ((stop_at_third_consecutive_newline ["a", "\n", "\n", "\n", "b"] 3).1).mpr
    ⟨by unfold tripleAt; decide, by unfold tripleAt; decide⟩

/-! ## Decode loops (lines 172-194 full-recompute, 196-223 cache-incremental)

The neural model is abstracted as `M : List ℕ → List ℚ`, the next-token
distribution after consuming a token sequence; the stateless path reads
`M ctx`, the cache path reads `M` of all tokens accumulated in the cache
(the adapter contract of spec section 6).  `samp i d` is the token the
sampler draws at step `i` from distribution `d`: fixing it models
identical random draws across both modes. -/

/-- Python truthiness of `last_out` in `if not last_out` (line 199):
`None` is falsy, and a one-element tensor is falsy exactly when its
element is zero. -/
def pyFalsy : Option ℕ → Bool
  | none => true
  | some t => t == 0

/-- Tokens fed to `model.update` at one cache-incremental step (lines
199-203): the single-turn context when `not last_out`, else the single
previously sampled token. -/
def cacheFeed (lastOut : Option ℕ) (turnIds : List ℕ) : List ℕ :=
  if pyFalsy lastOut then turnIds else [lastOut.getD 0]

/-- The full-recompute loop (lines 172-194): at each step read the
distribution at the current context, sample, and slide the window via
`input_ids = cat(input_ids, token)[:, -max_length:]` (line 182).
Returns the per-step (distribution, sampled token) pairs. -/
def fullRun (M : List ℕ → List ℚ) (samp : ℕ → List ℚ → ℕ) (max_length : ℕ) :
    ℕ → ℕ → List ℕ → List (List ℚ × ℕ)
  | 0, _, _ => []
  | fuel + 1, i, ctx =>
    (M ctx, samp i (M ctx)) ::
      fullRun M samp max_length fuel (i + 1)
        (pySliceFrom (-(max_length : ℤ)) (ctx ++ [samp i (M ctx)]))

/-- The cache-incremental loop (lines 196-223): `model.update(feed)`
appends the fed tokens to the cache and returns the last-position
distribution; the next `last_out` is the sampled token.  Returns the
per-step (distribution, sampled token) pairs. -/
def cacheRun (M : List ℕ → List ℚ) (samp : ℕ → List ℚ → ℕ) :
    ℕ → ℕ → List ℕ → Option ℕ → List ℕ → List (List ℚ × ℕ)
  | 0, _, _, _, _ => []
  | fuel + 1, i, cache, lastOut, turnIds =>
    (M (cache ++ cacheFeed lastOut turnIds),
      samp i (M (cache ++ cacheFeed lastOut turnIds))) ::
      cacheRun M samp fuel (i + 1) (cache ++ cacheFeed lastOut turnIds)
        (some (samp i (M (cache ++ cacheFeed lastOut turnIds)))) turnIds

/-- Sequence of inputs passed to the stateless forward call across the
full-recompute loop. -/
def fullInputs (M : List ℕ → List ℚ) (samp : ℕ → List ℚ → ℕ)
    (max_length : ℕ) : ℕ → ℕ → List ℕ → List (List ℕ)
  | 0, _, _ => []
  | fuel + 1, i, ctx =>
    ctx :: fullInputs M samp max_length fuel (i + 1)
      (pySliceFrom (-(max_length : ℤ)) (ctx ++ [samp i (M ctx)]))

/-- C5: the intended cache feeding works for `None` and for every
nonzero previous token, but a previously sampled token id 0 makes
`if not last_out` treat the tensor as falsy, so the code re-feeds the
whole single-turn encoding instead of the single token. -/
theorem cache_feed_zero_token_bug :
    cacheFeed none [7, 8, 9] = [7, 8, 9] ∧
    cacheFeed (some 5) [7, 8, 9] = [5] ∧
    cacheFeed (some 0) [7, 8, 9] = [7, 8, 9] ∧
    cacheFeed (some 0) [7, 8, 9] ≠ [0] := by decide

lemma pySliceFrom_neg_of_le {m : ℕ} {l : List α} (h : l.length ≤ m) :
    pySliceFrom (-(m : ℤ)) l = l := by
  unfold pySliceFrom
  split
  · have hz : ((-(m : ℤ)).toNat) = 0 := by omega
    rw [hz, List.drop_zero]
  · have hz : l.length - ((- -(m : ℤ)).toNat) = 0 := by omega
    rw [hz, List.drop_zero]

lemma pySliceFrom_nil (k : ℤ) : pySliceFrom k ([] : List α) = [] := by
  unfold pySliceFrom
  split <;> simp

lemma build_context_nil (enc : String → List ℕ) (hp ai : String)
    (max_length : ℕ) (sp : Option String) :
    build_context enc hp ai [] max_length sp = sysPromptIds enc sp := by
  unfold build_context turnTokens
  simp [pySliceFrom_nil]

/-- Core equivalence: as long as the sampler never draws token id 0 and
the growing context never exceeds the window, the full-recompute loop
over `cache ++ feed` emits exactly the cache loop's (distribution,
token) stream. -/
lemma run_equiv_aux (M : List ℕ → List ℚ) (samp : ℕ → List ℚ → ℕ)
    (max_length : ℕ) (hsamp : ∀ i d, samp i d ≠ 0) :
    ∀ fuel i cache lastOut turnIds,
      (cache ++ cacheFeed lastOut turnIds).length + fuel ≤ max_length + 1 →
      fullRun M samp max_length fuel i (cache ++ cacheFeed lastOut turnIds) =
        cacheRun M samp fuel i cache lastOut turnIds := by
  intro fuel
  induction fuel with
  | zero => intro i cache lastOut turnIds hlen; rfl
  | succ fuel ih =>
    intro i cache lastOut turnIds hlen
    simp only [fullRun, cacheRun]
    refine congrArg _ ?_
    cases fuel with
    | zero => rfl
    | succ fuel2 =>
      set ctx2 := cache ++ cacheFeed lastOut turnIds with hctx2
      set t := samp i (M ctx2) with ht
      have hz : t ≠ 0 := hsamp i (M ctx2)
      have hfeed1 : cacheFeed (some t) turnIds = [t] := by
        simp [cacheFeed, pyFalsy, beq_iff_eq, hz]
      have hident : pySliceFrom (-(max_length : ℤ)) (ctx2 ++ [t]) =
          ctx2 ++ [t] := by
        apply pySliceFrom_neg_of_le
        rw [List.length_append]
        simp only [List.length_cons, List.length_nil]
        omega
      rw [hident]
      have happ := ih (i + 1) ctx2 (some t) turnIds (by
        rw [hfeed1, List.length_append]
        simp only [List.length_cons, List.length_nil]
        omega)
      rw [hfeed1] at happ
      exact happ

/-- C1 (amended): with identical per-step draws, the cache-incremental
turn (cache primed with the system-prompt context, first feed the
single-turn context built without system prompt, then one sampled token
at a time) emits the same distribution and the same sampled token at
every step as full-recompute over the full built context — provided no
truncation occurs and no sampled token has id 0. -/
theorem cache_incremental_equiv_full_recompute
    (M : List ℕ → List ℚ) (samp : ℕ → List ℚ → ℕ) (max_length : ℕ)
    (hsamp : ∀ i d, samp i d ≠ 0)
    (enc : String → List ℕ) (hp ai : String) (h : String) (sys : Option String)
    (fuel i : ℕ)
    (hfit : (sysPromptIds enc sys).length +
      (turnTokens enc hp ai [(h, "")]).length + fuel ≤ max_length + 1) :
    fullRun M samp max_length fuel i
      (build_context enc hp ai [(h, "")] max_length sys) =
    cacheRun M samp fuel i (build_context enc hp ai [] max_length sys)
      none (build_context enc hp ai [(h, "")] max_length none) := by
  cases fuel with
  | zero => rfl
  | succ fuel2 =>
    have hT : (sysPromptIds enc sys).length +
        (turnTokens enc hp ai [(h, "")]).length ≤ max_length := by omega
    have hfull : build_context enc hp ai [(h, "")] max_length sys =
        sysPromptIds enc sys ++ turnTokens enc hp ai [(h, "")] := by
      unfold build_context
      rw [pySliceFrom_of_fits _ _ _ hT]
    have hturn : build_context enc hp ai [(h, "")] max_length none =
        turnTokens enc hp ai [(h, "")] := by
      unfold build_context
      rw [show sysPromptIds enc none = [] from rfl]
      simp only [List.length_nil, List.nil_append]
      rw [pySliceFrom_of_fits 0 max_length
        (turnTokens enc hp ai [(h, "")]) (by omega)]
    have hcache := build_context_nil enc hp ai max_length sys
    rw [hfull, hturn, hcache]
    have := run_equiv_aux M samp max_length hsamp (fuel2 + 1) i
      (sysPromptIds enc sys) none (turnTokens enc hp ai [(h, "")])
      (by
        simp only [cacheFeed, pyFalsy, if_true, List.length_append]
        omega)
    simpa [cacheFeed, pyFalsy] using this

/-- C1 (counterexample to the claim as stated): with no truncation at
all (window 100) and identical draws that return token id 0, the two
loops diverge from the second step on — the cache loop re-feeds the turn
encoding — so the equivalence does not hold up to the truncation
asymmetry alone. -/
theorem cache_full_equiv_counterexample :
    fullRun (fun l => if l = [1, 0] then [0] else [1]) (fun _ _ => 0) 100 2 0
      ([] ++ cacheFeed none [1]) ≠
    cacheRun (fun l => if l = [1, 0] then [0] else [1]) (fun _ _ => 0) 2 0
      [] none [1] := by decide

/-- Witness for `cache_incremental_equiv_full_recompute` at the
character tokenizer, system prompt "a", one human turn "x", window 20,
two steps, all draws returning token 7. -/
theorem cache_incremental_equiv_witness :
    fullRun (fun l => [(1 : ℚ)]) (fun _ _ => 7) 20 2 0
      (build_context charEnc "" "" [("x", "")] 20 (some "a")) =
    cacheRun (fun l => [(1 : ℚ)]) (fun _ _ => 7) 2 0
      (build_context charEnc "" "" [] 20 (some "a"))
      none (build_context charEnc "" "" [("x", "")] 20 none) :=
  cache_incremental_equiv_full_recompute (fun l => [(1 : ℚ)]) (fun _ _ => 7)
    20 (fun i d => Nat.succ_ne_zero 6) charEnc "" "" "x" (some "a") 2 0
    (by decide)

/-- C10 (amended): in full-recompute mode with a positive window and an
initial context that fits, every forward input has at most `max_length`
tokens; the update keeps exactly the last `max_length` tokens of the
previous input extended by the sampled token; and the window does not
re-reserve the pinned prefix — in the concrete run the pinned token 5 of
the initial input has been slid out by the third forward call. -/
theorem full_recompute_window_bound (M : List ℕ → List ℚ)
    (samp : ℕ → List ℚ → ℕ) (max_length : ℕ) (hm : 1 ≤ max_length)
    (fuel i : ℕ) (ctx : List ℕ) (h0 : ctx.length ≤ max_length) :
    (∀ w ∈ fullInputs M samp max_length fuel i ctx, w.length ≤ max_length) ∧
    (∀ ids : List ℕ, ∀ tok : ℕ,
      pySliceFrom (-(max_length : ℤ)) (ids ++ [tok]) =
        (ids ++ [tok]).drop (ids.length + 1 - max_length)) ∧
    fullInputs (fun _ => ([] : List ℚ)) (fun _ _ => 9) 2 3 0 [5, 6] =
      [[5, 6], [6, 9], [9, 9]] := by
  refine ⟨?_, ?_, by decide⟩
  · induction fuel generalizing i ctx with
    | zero => intro w hw; cases hw
    | succ fuel ih =>
      intro w hw
      rcases List.mem_cons.mp hw with rfl | hw2
      · exact h0
      · refine ih (i + 1) _ ?_ w hw2
        unfold pySliceFrom
        rw [if_neg (by omega)]
        simp only [List.length_drop, List.length_append, List.length_cons,
          List.length_nil]
        omega
  · intro ids tok
    unfold pySliceFrom
    rw [if_neg (by omega)]
    simp only [List.length_append, List.length_cons, List.length_nil]
    congr 1
    omega

/-- C10 (counterexample to the claim as stated): when the pinned prefix
fills the whole window, the very first forward call already receives
more than `max_length` tokens (9 > 5), because `build_context` itself
overflows there. -/
theorem full_recompute_window_counterexample :
    ¬ ∀ w ∈ fullInputs (fun _ => ([] : List ℚ)) (fun _ _ => 0) 5 1 0
        (build_context charEnc "H:" "A:" [("x", "")] 5 (some "ab")),
      w.length ≤ 5 := by decide

/-- Witness for `full_recompute_window_bound` at window 2, initial
context `[5, 6]`, three steps. -/
theorem full_recompute_window_bound_witness :
    (∀ w ∈ fullInputs (fun _ => ([] : List ℚ)) (fun _ _ => 9) 2 3 0 [5, 6],
      w.length ≤ 2) ∧
    fullInputs (fun _ => ([] : List ℚ)) (fun _ _ => 9) 2 3 0 [5, 6] =
      [[5, 6], [6, 9], [9, 9]] := by
  have h := full_recompute_window_bound (fun _ => ([] : List ℚ))
    (fun _ _ => 9) 2 (by omega) 3 0 [5, 6] (by decide)
  exact ⟨h.1, h.2.2⟩

end MiniLM2
